import Mathlib

/-!
Shallow embedding of the predicate-device extraction engine of the
predicate-graph repository (source files src/processors.py and
src/pdf_processor.py), together with theorems settling the specification
claims about it.

Python regular expressions are modelled over ASCII text: the class \s is
the six ASCII whitespace characters, \d the ASCII digits, \w ASCII
letters, digits and underscore, and IGNORECASE folds ASCII letters only.
Python sets are modelled as Finset String: list(predicate_devices) exposes
the set in an unspecified iteration order, so any duplicate-free list
carrying exactly the elements of the set is a possible return value.
-/

namespace PredicateGraph

/-- ASCII model of the Python regex class \s. -/
def isSpaceChar (c : Char) : Bool :=
  c = ' ' || c = '\t' || c = '\n' || c = '\r' || c = '\x0b' || c = '\x0c'

/-- ASCII model of the Python regex class \w (word characters), used for
the word boundary \b. -/
def isWordChar (c : Char) : Bool :=
  c.isAlpha || c.isDigit || c = '_'

/-- Word-boundary test after a match: the head of the remaining text is a
word character. -/
def headIsWord : List Char → Bool
  | [] => false
  | c :: _ => isWordChar c

/-- Tokens of the fixed trigger-phrase regexes of pdf_processor.py: a
literal character (compared case-insensitively, modelling IGNORECASE), a
one-or-more whitespace gap for a segment \s+, and a zero-or-more
whitespace gap for a segment \s*. -/
inductive PatTok where
  | lit (c : Char)
  | sp1
  | sp0
deriving DecidableEq

/-- Fuelled matcher deciding whether a trigger-phrase pattern matches a
prefix of the text; the disjunction in the sp0 case explores every
whitespace split exactly as regex backtracking does.  Each call decreases
the sum of the pattern length and the text length, so fuel above that sum
never runs out. -/
def matchToksF : Nat → List PatTok → List Char → Bool
  | 0, _, _ => false
  | _ + 1, [], _ => true
  | fuel + 1, PatTok.lit c :: ps, xs =>
    match xs with
    | [] => false
    | x :: xt => (x.toLower == c) && matchToksF fuel ps xt
  | fuel + 1, PatTok.sp1 :: ps, xs =>
    match xs with
    | [] => false
    | x :: xt => isSpaceChar x && matchToksF fuel (PatTok.sp0 :: ps) xt
  | fuel + 1, PatTok.sp0 :: ps, xs =>
    matchToksF fuel ps xs ||
      match xs with
      | [] => false
      | x :: xt => isSpaceChar x && matchToksF fuel (PatTok.sp0 :: ps) xt

/-- Matcher for a trigger-phrase pattern at the start of the text. -/
def matchToks (ps : List PatTok) (xs : List Char) : Bool :=
  matchToksF (ps.length + xs.length + 1) ps xs

/-- Model of re.search for a trigger-phrase pattern: the pattern matches
starting at some position of the text. -/
def searchPat (ps : List PatTok) : List Char → Bool
  | [] => matchToks ps []
  | x :: xt => matchToks ps (x :: xt) || searchPat ps xt

/-- Literal characters of a phrase word as pattern tokens. -/
def litToks (s : String) : List PatTok := s.data.map PatTok.lit

/-- Phrase words joined by a fixed whitespace gap token. -/
def phraseGap (gap : PatTok) : List String → List PatTok
  | [] => []
  | [w] => litToks w
  | w :: w2 :: ws => litToks w ++ gap :: phraseGap gap (w2 :: ws)

/-- The predicate_patterns list of extract_predicate_devices, each regex
of shape word\s+word... searched with IGNORECASE. -/
def predicate_patterns : List (List PatTok) :=
  [ phraseGap PatTok.sp1 ["predicate", "device"],
    phraseGap PatTok.sp1 ["primary", "predicate", "device"],
    phraseGap PatTok.sp1 ["reference", "predicate", "device"],
    phraseGap PatTok.sp1 ["substantially", "equivalent", "device"],
    phraseGap PatTok.sp1 ["equivalent", "legally", "marketed", "device"],
    phraseGap PatTok.sp1 ["reference", "device"],
    phraseGap PatTok.sp1 ["comparable", "device"],
    phraseGap PatTok.sp1 ["previously", "cleared", "device"] ]

/-- The table_indicators list of extract_predicate_devices; the
alternation (predicate|reference|equivalent)\s*device is expanded into its
three alternatives, which is equivalent under re.search used as a
boolean. -/
def table_indicators : List (List PatTok) :=
  [ phraseGap PatTok.sp0 ["predicate", "device"],
    phraseGap PatTok.sp0 ["reference", "device"],
    phraseGap PatTok.sp0 ["equivalent", "device"],
    phraseGap PatTok.sp0 ["510(k)", "number"],
    phraseGap PatTok.sp0 ["k", "number"],
    phraseGap PatTok.sp0 ["substantial", "equivalence"],
    litToks ("model") ]

/-- The section_patterns list of extract_predicate_devices (the inline
(?i) flags are subsumed by the IGNORECASE search). -/
def section_patterns : List (List PatTok) :=
  [ phraseGap PatTok.sp1 ["comparable", "device"],
    phraseGap PatTok.sp1 ["equivalent", "device"],
    phraseGap PatTok.sp1 ["reference", "device"],
    phraseGap PatTok.sp1 ["predicate", "identification"],
    phraseGap PatTok.sp1 ["substantial", "equivalence"] ]

/-- A line matches some direct predicate-trigger phrase (the first loop of
extract_predicate_devices; the break after the first hit only avoids
duplicate work, so the boolean is faithful). -/
def predTrigger (line : String) : Bool :=
  predicate_patterns.any fun p => searchPat p line.data

/-- A line matches some table/column-header indicator. -/
def tableTrigger (line : String) : Bool :=
  table_indicators.any fun p => searchPat p line.data

/-- The section patterns a line matches; the loop over section_patterns
has no break, so a line is recorded once per matching pattern. -/
def sectionHits (line : String) : List (List PatTok) :=
  section_patterns.filter fun p => searchPat p line.data

/-- A line matches some secondary section phrase. -/
def sectionTrigger (line : String) : Bool :=
  section_patterns.any fun p => searchPat p line.data

/-- Characters of the OCR-tolerant class [O0-9]; under IGNORECASE the
letter O also matches in lowercase. -/
def isOcrChar (c : Char) : Bool := c.isDigit || c = 'O' || c = 'o'

/-- The prefix letter K under IGNORECASE. -/
def isKChar (c : Char) : Bool := c = 'K' || c = 'k'

/-- Attempt of the standard pattern
\bK\s*\d-6-or-more\b alternated with \bK\s*\d-3\s*\d-3-or-more\b
at the current position (the leading word boundary is checked by the
caller).  Greedy runs are maximal spans; a trailing word boundary can
never sit inside a digit run, so span-maximal matching coincides with
backtracking.  Returns the matched characters and the rest of the text. -/
def tryStdAt : List Char → Option (List Char × List Char)
  | [] => none
  | c :: rest =>
    if isKChar c then
      let sp := rest.takeWhile isSpaceChar
      let r1 := rest.dropWhile isSpaceChar
      let ds := r1.takeWhile Char.isDigit
      let r2 := r1.dropWhile Char.isDigit
      if 6 ≤ ds.length && !headIsWord r2 then
        some (c :: (sp ++ ds), r2)
      else
        match r1 with
        | d1 :: d2 :: d3 :: r3 =>
          if d1.isDigit && d2.isDigit && d3.isDigit then
            let sp2 := r3.takeWhile isSpaceChar
            let r4 := r3.dropWhile isSpaceChar
            let ds2 := r4.takeWhile Char.isDigit
            let r5 := r4.dropWhile Char.isDigit
            if 3 ≤ ds2.length && !headIsWord r5 then
              some (c :: (sp ++ (d1 :: d2 :: d3 :: (sp2 ++ ds2))), r5)
            else none
          else none
        | _ => none
    else none

/-- Attempt of the OCR-error pattern \bK\s*[O0-9]-6-or-more\b at the
current position. -/
def tryOcrAt : List Char → Option (List Char × List Char)
  | [] => none
  | c :: rest =>
    if isKChar c then
      let sp := rest.takeWhile isSpaceChar
      let r1 := rest.dropWhile isSpaceChar
      let os := r1.takeWhile isOcrChar
      let r2 := r1.dropWhile isOcrChar
      if 6 ≤ os.length && !headIsWord r2 then
        some (c :: (sp ++ os), r2)
      else none
    else none

/-- Fuelled model of re.findall: scan left to right, at each position
whose preceding character is not a word character (the leading \b) try
the pattern, and continue after a match (non-overlapping matches).  Every
match starts with K and ends with a word character, so each step consumes
at least one character and text length is enough fuel. -/
def findallF (tryAt : List Char → Option (List Char × List Char)) :
    Nat → Bool → List Char → List (List Char)
  | 0, _, _ => []
  | _ + 1, _, [] => []
  | fuel + 1, prevW, c :: rest =>
    if prevW then findallF tryAt fuel (isWordChar c) rest
    else
      match tryAt (c :: rest) with
      | some (m, rest2) => m :: findallF tryAt fuel true rest2
      | none => findallF tryAt fuel (isWordChar c) rest

/-- All matches of the standard K-number pattern, in text order. -/
def findallStd (cs : List Char) : List (List Char) :=
  findallF tryStdAt cs.length false cs

/-- All matches of the OCR-error K-number pattern, in text order. -/
def findallOcr (cs : List Char) : List (List Char) :=
  findallF tryOcrAt cs.length false cs

/-- Cleanup of a raw match: remove whitespace and uppercase (the
re.sub of \s+ and .upper() of extract_k_number_pattern). -/
def cleanRaw (m : List Char) : List Char :=
  (m.filter fun c => !isSpaceChar c).map Char.toUpper

/-- The OCR-correction gate of extract_k_number_pattern: the cleaned text
matches anchored K[O0-9]-exactly-6. -/
def ocrShape : List Char → Bool
  | c :: ds => c == 'K' && ds.length == 6 && ds.all fun d => d.isDigit || d == 'O'
  | [] => false

/-- Replacement of the OCR-confusable letter O by the digit zero. -/
def ocrFix (c : Char) : Char := if c = 'O' then '0' else c

/-- Cleanup plus conditional OCR correction of one raw match: the letter O
becomes 0 after the prefix, but only when the cleaned match has the
OCR-tolerant code shape. -/
def cleanMatch (m : List Char) : List Char :=
  let c1 := cleanRaw m
  if ocrShape c1 then
    match c1 with
    | c :: ds => c :: ds.map ocrFix
    | [] => []
  else c1

/-- The final validation of extract_k_number_pattern: anchored K followed
by exactly six digits. -/
def validShape : List Char → Bool
  | c :: ds => c == 'K' && ds.length == 6 && ds.all Char.isDigit
  | [] => false

/-- Canonical-format test on strings: the letter K followed by exactly six
digits. -/
def isCanonicalK (s : String) : Bool := validShape s.data

/-- Clean one raw match and keep it only if it validates. -/
def cleanStep (m : List Char) : Option String :=
  let c2 := cleanMatch m
  if validShape c2 then some (String.mk c2) else none

/-- Order-preserving de-duplication with a seen accumulator, as in the
final loop of extract_k_number_pattern. -/
def dedupAux {α : Type} [DecidableEq α] (seen : List α) : List α → List α
  | [] => []
  | x :: xs => if x ∈ seen then dedupAux seen xs else x :: dedupAux (x :: seen) xs

/-- First-seen de-duplication of a list. -/
def dedupFirst {α : Type} [DecidableEq α] (l : List α) : List α := dedupAux [] l

/-- Embedding of extract_k_number_pattern of src/pdf_processor.py: find
all matches of the standard pattern, then all matches of the OCR pattern,
clean and validate each in that order, and de-duplicate keeping first-seen
order. -/
def extract_k_number_pattern (text : String) : List String :=
  dedupFirst ((findallStd text.data ++ findallOcr text.data).filterMap cleanStep)

/-- Whether a character list ends with a newline. -/
def endsNl : List Char → Bool
  | [] => false
  | [c] => c == '\n'
  | _ :: c :: rest => endsNl (c :: rest)

/-- Everything but the last element. -/
def dropLastL {α : Type} : List α → List α
  | [] => []
  | [_] => []
  | a :: b :: rest => a :: dropLastL (b :: rest)

/-- Characters other than the dot. -/
def notDot (c : Char) : Bool := !(c == '.')

/-- Core of the model of re.sub of the anchored pattern dot-dot-star: in
the part of the string before a trailing newline, the dot of the match
must lie in the last line (the class of the star cannot cross a newline
and the anchor only matches at the end), and the leftmost such match
removes everything from the first dot of that last line onward. -/
def stripDotCore : List Char → List Char
  | [] => []
  | c :: rest =>
    if '\n' ∈ rest then c :: stripDotCore rest
    else if c = '\n' then c :: rest.takeWhile notDot
    else (c :: rest).takeWhile notDot

/-- Model of re.sub removing a trailing dot-suffix as in normalize_knumber
of src/processors.py: when the string ends with a newline the anchor also
matches just before it, so the newline is kept and the part before it is
stripped; otherwise the whole string is stripped. -/
def stripDotList (cs : List Char) : List Char :=
  if endsNl cs then stripDotCore (dropLastL cs) ++ ['\n'] else stripDotCore cs

/-- Core of normalize_knumber on the character list of a nonempty input:
strip the dot suffix, prepend K when the (case-insensitive) prefix is not
K, then force the first character to uppercase K. -/
def normalizeList (cs : List Char) : List Char :=
  match stripDotList cs with
  | [] => ['K']
  | c :: rest => if c == 'K' || c == 'k' then 'K' :: rest else 'K' :: c :: rest

/-- Embedding of normalize_knumber of src/processors.py.  The Python
parameter may be None and the falsy test treats None and the empty string
alike, modelled by Option String; every other input is normalized with no
validation of the remaining characters. -/
def normalize_knumber : Option String → Option String
  | none => none
  | some s => if s = "" then none else some (String.mk (normalizeList s.data))

/-- Concatenation of the images of a list under a list-valued function. -/
def listFlat {α β : Type} (f : α → List β) : List α → List β
  | [] => []
  | a :: l => f a ++ listFlat f l

/-- Elements of a list paired with their indices, starting at n. -/
def enumFrom {α : Type} (n : Nat) : List α → List (Nat × α)
  | [] => []
  | a :: l => (n, a) :: enumFrom (n + 1) l

/-- Model of the Python str.split on a newline: the empty string yields
one empty line and a trailing newline yields a trailing empty line. -/
def splitNl : List Char → List (List Char)
  | [] => [[]]
  | c :: rest =>
    if c = '\n' then [] :: splitNl rest
    else
      match splitNl rest with
      | l :: ls => (c :: l) :: ls
      | [] => [[c]]

/-- The lines of the document text, as split by extract_predicate_devices. -/
def splitLines (s : String) : List String := (splitNl s.data).map String.mk

/-- Join of character lists with newline separators. -/
def joinNlL : List (List Char) → List Char
  | [] => []
  | [l] => l
  | l :: l2 :: ls => l ++ '\n' :: joinNlL (l2 :: ls)

/-- Model of the newline join of the lines of a table section. -/
def joinNl (ls : List String) : String := String.mk (joinNlL (ls.map String.data))

/-- Model of re.search of the pattern K followed by six digits (with
IGNORECASE) used on table rows: some position starts with the letter K
and at least six digits. -/
def containsK6 : List Char → Bool
  | [] => false
  | c :: rest =>
    (isKChar c && (rest.take 6).length == 6 && (rest.take 6).all Char.isDigit) ||
      containsK6 rest

/-- Model of re.search of an anchored whitespace-only pattern on a line
without newlines: every character is whitespace. -/
def isBlankLine (cs : List Char) : Bool := cs.all isSpaceChar

/-- The table_sections list of extract_predicate_devices: one half-open
region per line matching a table indicator, from two lines before the
header (truncated at zero) to twenty lines after it (clipped to the line
count). -/
def tableSections (lines : List String) : List (Nat × Nat) :=
  listFlat
    (fun p => if tableTrigger p.2 then [(p.1 - 2, min lines.length (p.1 + 20))] else [])
    (enumFrom 0 lines)

/-- The lines following a trigger line that are appended to
potential_lines: the next three lines when they exist. -/
def followLines (lines : List String) (i : Nat) : List String :=
  (List.range 3).filterMap fun j => lines.get? (i + j + 1)

/-- The potential_lines sequence of the direct-trigger pass: every line
matching a predicate pattern together with its three successors. -/
def potentialLines (lines : List String) : List String :=
  listFlat (fun p => if predTrigger p.2 then p.2 :: followLines lines p.1 else [])
    (enumFrom 0 lines)

/-- The section_start_indices list of the secondary pass; a line is
recorded once per matching section pattern because that loop has no
break. -/
def sectionStarts (lines : List String) : List Nat :=
  listFlat (fun p => (sectionHits p.2).map fun _ => p.1) (enumFrom 0 lines)

/-- The spillover codes of one table row: when the next line is inside the
region, has no K-number-shaped token and is not blank, its pattern-matcher
codes are added. -/
def spillCodes (lines : List String) (e i : Nat) : List String :=
  if i + 1 < e then
    if !containsK6 (lines.getD (i + 1) ("")).data &&
        !isBlankLine (lines.getD (i + 1) ("")).data then
      extract_k_number_pattern (lines.getD (i + 1) (""))
    else []
  else []

/-- The codes contributed by one line of a table region: when the line
contains a K-number-shaped token, each of its codes followed by the
spillover codes of the next line (the spillover check sits inside the
per-code loop in the source). -/
def rowCodes (lines : List String) (e i : Nat) : List String :=
  if containsK6 (lines.getD i ("")).data then
    listFlat (fun k => k :: spillCodes lines e i)
      (extract_k_number_pattern (lines.getD i ("")))
  else []

/-- The codes contributed by one table section: the pattern matcher over
the joined text of the region, then the per-row handling of each line of
the region. -/
def sectionCodes (lines : List String) (p : Nat × Nat) : List String :=
  extract_k_number_pattern (joinNl ((lines.drop p.1).take (p.2 - p.1))) ++
    listFlat (rowCodes lines p.2) (List.range' p.1 (p.2 - p.1))

/-- The codes contributed by one secondary section start: the pattern
matcher over each of the following fifteen lines, clipped to bounds. -/
def afterSectionCodes (lines : List String) (startIdx : Nat) : List String :=
  listFlat (fun i => extract_k_number_pattern (lines.getD i ("")))
    (List.range' startIdx (min (startIdx + 15) lines.length - startIdx))

/-- Every code added to the predicate_devices set by
extract_predicate_devices, in the traversal order of the source: the
direct-trigger pass, then the table pass, then the secondary-section
pass. -/
def gatherAll (text : String) : List String :=
  listFlat extract_k_number_pattern (potentialLines (splitLines text)) ++
    listFlat (sectionCodes (splitLines text)) (tableSections (splitLines text)) ++
      listFlat (afterSectionCodes (splitLines text)) (sectionStarts (splitLines text))

/-- The self-exclusion step of extract_predicate_devices on the collected
set: only a truthy (nonempty) own code is normalized and removed. -/
def ownErase (s : Finset String) : Option String → Finset String
  | none => s
  | some c =>
    if c = "" then s
    else
      match normalize_knumber (some c) with
      | some n => s.erase n
      | none => s

/-- Embedding of extract_predicate_devices of src/pdf_processor.py.  The
predicate_devices accumulator is a Python set, modelled as the Finset of
all codes gathered across the three passes; the final list(...) returns
its elements in an unspecified iteration order, so the function is
modelled as returning the set itself. -/
def extract_predicate_devices (text : String) (own : Option String) : Finset String :=
  ownErase (gatherAll text).toFinset own

/-- The self-exclusion step applied to an ordered code list instead of the
set, keeping the order of the remaining codes. -/
def ownEraseL (d : List String) : Option String → List String
  | none => d
  | some c =>
    if c = "" then d
    else
      match normalize_knumber (some c) with
      | some n => d.filter fun k => decide (k ≠ n)
      | none => d

/-- The extraction result in first-discovery order: the gathered codes
de-duplicated keeping first-seen order across the three passes, with the
normalized own code removed.  This is the ordered sequence the
specification describes. -/
def firstSeenExtract (text : String) (own : Option String) : List String :=
  ownEraseL (dedupFirst (gatherAll text)) own

/-- The parsed-PDF data consumed by process_pdf_for_predicates: the
parseable flag and the extracted text (a missing text key defaults to the
empty string); a missing or falsy pdf_data dictionary is modelled by
none. -/
structure PdfData where
  parseable : Bool
  text : String

/-- Embedding of process_pdf_for_predicates of src/pdf_processor.py; a
total function, mirroring that the source never raises and reports absent
or unparseable input as an empty result. -/
def process_pdf_for_predicates : Option PdfData → Option String → Finset String
  | none, _ => ∅
  | some d, own =>
    if !d.parseable then ∅
    else if d.text = "" then ∅
    else extract_predicate_devices d.text own

theorem mem_listFlat {α β : Type} {f : α → List β} :
    ∀ {l : List α} {b : β}, b ∈ listFlat f l → ∃ a, a ∈ l ∧ b ∈ f a := by
  intro l
  induction l with
  | nil => intro b h; simp [listFlat] at h
  | cons a t ih =>
    intro b h
    simp only [listFlat] at h
    rcases List.mem_append.mp h with h1 | h2
    · exact ⟨a, List.mem_cons_self a t, h1⟩
    · rcases ih h2 with ⟨x, hx, hb⟩
      exact ⟨x, List.mem_cons_of_mem a hx, hb⟩

theorem listFlat_mem_intro {α β : Type} {f : α → List β} {b : β} :
    ∀ {l : List α} {a : α}, a ∈ l → b ∈ f a → b ∈ listFlat f l := by
  intro l
  induction l with
  | nil => intro a h; cases h
  | cons x t ih =>
    intro a ha hb
    simp only [listFlat]
    rcases List.mem_cons.mp ha with h1 | h2
    · subst h1; exact List.mem_append.mpr (Or.inl hb)
    · exact List.mem_append.mpr (Or.inr (ih h2 hb))

theorem listFlat_eq_nil {α β : Type} {f : α → List β} :
    ∀ {l : List α}, (∀ a ∈ l, f a = []) → listFlat f l = [] := by
  intro l
  induction l with
  | nil => intro _; rfl
  | cons a t ih =>
    intro h
    simp only [listFlat]
    rw [h a (List.mem_cons_self a t), ih fun x hx => h x (List.mem_cons_of_mem a hx)]
    rfl

theorem mem_enumFrom {α : Type} :
    ∀ {l : List α} {n : Nat} {p : Nat × α}, p ∈ enumFrom n l → p.2 ∈ l := by
  intro l
  induction l with
  | nil => intro n p h; cases h
  | cons a t ih =>
    intro n p h
    rcases List.mem_cons.mp h with h1 | h2
    · subst h1; exact List.mem_cons_self a t
    · exact List.mem_cons_of_mem a (ih h2)

theorem enumFrom_get {α : Type} :
    ∀ (l : List α) (n i : Nat) (h : i < l.length),
      (n + i, l.get ⟨i, h⟩) ∈ enumFrom n l := by
  intro l
  induction l with
  | nil => intro n i h; exact absurd h (Nat.not_lt_zero i)
  | cons a t ih =>
    intro n i h
    cases i with
    | zero => simp [enumFrom]
    | succ j =>
      have hmem := ih (n + 1) j (Nat.lt_of_succ_lt_succ h)
      have heq : n + (j + 1) = (n + 1) + j := by omega
      simp only [enumFrom]
      refine List.mem_cons_of_mem _ ?_
      rw [heq]
      exact hmem

theorem mem_dedupAux {α : Type} [DecidableEq α] (x : α) :
    ∀ (l seen : List α), x ∈ dedupAux seen l ↔ x ∈ l ∧ x ∉ seen
  | [], seen => by simp [dedupAux]
  | y :: t, seen => by
    by_cases hy : y ∈ seen
    · rw [dedupAux, if_pos hy, mem_dedupAux x t seen]
      constructor
      · rintro ⟨hx, hs⟩; exact ⟨List.mem_cons_of_mem _ hx, hs⟩
      · rintro ⟨hx, hs⟩
        rcases List.mem_cons.mp hx with h1 | h2
        · subst h1; exact absurd hy hs
        · exact ⟨h2, hs⟩
    · rw [dedupAux, if_neg hy]
      constructor
      · intro hx
        rcases List.mem_cons.mp hx with h1 | h2
        · subst h1; exact ⟨List.mem_cons_self _ _, hy⟩
        · rcases (mem_dedupAux x t (y :: seen)).mp h2 with ⟨ht, hs⟩
          exact ⟨List.mem_cons_of_mem _ ht, fun hc => hs (List.mem_cons_of_mem _ hc)⟩
      · rintro ⟨hx, hs⟩
        rcases List.mem_cons.mp hx with h1 | h2
        · subst h1; exact List.mem_cons_self _ _
        · by_cases hxy : x = y
          · subst hxy; exact List.mem_cons_self _ _
          · refine List.mem_cons_of_mem _ ((mem_dedupAux x t (y :: seen)).mpr ⟨h2, ?_⟩)
            intro hc
            rcases List.mem_cons.mp hc with h3 | h4
            · exact hxy h3
            · exact hs h4

theorem mem_dedupFirst {α : Type} [DecidableEq α] {l : List α} {x : α} :
    x ∈ dedupFirst l ↔ x ∈ l := by
  rw [dedupFirst, mem_dedupAux]
  simp

theorem toFinset_dedupFirst {α : Type} [DecidableEq α] (l : List α) :
    (dedupFirst l).toFinset = l.toFinset := by
  ext x
  simp [List.mem_toFinset, mem_dedupFirst]

theorem cleanStep_valid {m : List Char} {k : String} (h : cleanStep m = some k) :
    isCanonicalK k = true := by
  simp only [cleanStep] at h
  split at h
  · cases h
    simpa [isCanonicalK] using by assumption
  · cases h

theorem extract_k_canonical {t k : String} (h : k ∈ extract_k_number_pattern t) :
    isCanonicalK k = true := by
  rw [extract_k_number_pattern, mem_dedupFirst] at h
  rcases List.mem_filterMap.mp h with ⟨m, _, hm⟩
  exact cleanStep_valid hm

theorem mem_gatherAll {text k : String} (h : k ∈ gatherAll text) :
    ∃ t, k ∈ extract_k_number_pattern t := by
  unfold gatherAll at h
  rcases List.mem_append.mp h with h12 | h3
  · rcases List.mem_append.mp h12 with h1 | h2
    · rcases mem_listFlat h1 with ⟨line, _, hk⟩
      exact ⟨line, hk⟩
    · rcases mem_listFlat h2 with ⟨p, _, hk⟩
      unfold sectionCodes at hk
      rcases List.mem_append.mp hk with ha | hb
      · exact ⟨_, ha⟩
      · rcases mem_listFlat hb with ⟨i, _, hr⟩
        unfold rowCodes at hr
        split at hr
        · rcases mem_listFlat hr with ⟨k2, hk2, hmem⟩
          rcases List.mem_cons.mp hmem with he | hs
          · subst he; exact ⟨_, hk2⟩
          · unfold spillCodes at hs
            split at hs
            · split at hs
              · exact ⟨_, hs⟩
              · cases hs
            · cases hs
        · cases hr
  · rcases mem_listFlat h3 with ⟨idx, _, hk⟩
    rcases mem_listFlat hk with ⟨i, _, hkk⟩
    exact ⟨_, hkk⟩

theorem ownErase_subset {s : Finset String} {o : Option String} :
    ownErase s o ⊆ s := by
  cases o with
  | none => exact fun x h => h
  | some c =>
    simp only [ownErase]
    split
    · exact fun x h => h
    · split
      · exact fun x h => Finset.mem_of_mem_erase h
      · exact fun x h => h

theorem ownErase_empty (o : Option String) : ownErase ∅ o = ∅ := by
  cases o with
  | none => rfl
  | some c =>
    simp only [ownErase]
    split
    · rfl
    · split
      · exact Finset.erase_empty _
      · rfl

theorem endsNl_eq_false : ∀ {cs : List Char}, '\n' ∉ cs → endsNl cs = false
  | [], _ => rfl
  | [c], h => by
    have hc : c ≠ '\n' := by
      intro he
      exact h (by simp [he])
    simp [endsNl, hc]
  | a :: b :: rest, h => by
    have hbr : '\n' ∉ b :: rest := fun hm => h (List.mem_cons_of_mem a hm)
    simpa [endsNl] using endsNl_eq_false hbr

theorem stripDotCore_no_nl : ∀ {cs : List Char}, '\n' ∉ cs →
    stripDotCore cs = cs.takeWhile notDot
  | [], _ => rfl
  | c :: rest, h => by
    have h1 : '\n' ∉ rest := fun hm => h (List.mem_cons_of_mem c hm)
    have h2 : c ≠ '\n' := fun he => h (he ▸ List.mem_cons_self c rest)
    simp only [stripDotCore]
    rw [if_neg h1, if_neg h2]

theorem stripDotList_no_nl {cs : List Char} (h : '\n' ∉ cs) :
    stripDotList cs = cs.takeWhile notDot := by
  rw [stripDotList, endsNl_eq_false h]
  simpa using stripDotCore_no_nl h

theorem takeWhile_all {p : Char → Bool} :
    ∀ {l : List Char}, (∀ x ∈ l, p x = true) → l.takeWhile p = l := by
  intro l
  induction l with
  | nil => intro _; rfl
  | cons a t ih =>
    intro h
    rw [List.takeWhile_cons, if_pos (h a (List.mem_cons_self a t))]
    rw [ih fun x hx => h x (List.mem_cons_of_mem a hx)]

theorem normalizeList_shape (cs : List Char) :
    ∃ v, normalizeList cs = 'K' :: v ∧
      (v = (stripDotList cs).tail ∨ v = stripDotList cs) := by
  cases ht : stripDotList cs with
  | nil => exact ⟨[], by simp [normalizeList, ht], Or.inr rfl⟩
  | cons c rest =>
    by_cases hk : (c == 'K' || c == 'k') = true
    · exact ⟨rest, by simp [normalizeList, ht, hk], Or.inl rfl⟩
    · exact ⟨c :: rest, by simp [normalizeList, ht, hk], Or.inr rfl⟩

/-- C1 counterexample: a duplicate-free list carrying exactly the elements
of the returned set (hence a possible value of list(predicate_devices))
that is not in first-discovery order, at a concrete document with two
codes; the set abstraction of the source cannot guarantee the claimed
ordering. -/
theorem extract_order_not_first_seen :
    ([("K222222"), ("K111111")] : List String).Nodup ∧
      ([("K222222"), ("K111111")] : List String).toFinset =
        extract_predicate_devices ("Predicate device: K111111 and K222222") none ∧
      ([("K222222"), ("K111111")] : List String) ≠
        firstSeenExtract ("Predicate device: K111111 and K222222") none :=
  ⟨by decide, by decide, by decide⟩

/-- C1 amended: the orchestrator returns the gathered codes as an
unordered set whose elements are exactly those of the first-discovery
sequence across the fixed pass order (direct-trigger, table, secondary)
with the own code removed; the order in which list(...) presents them is
unspecified. -/
theorem extract_set_eq_first_seen (text : String) (own : Option String) :
    extract_predicate_devices text own = (firstSeenExtract text own).toFinset := by
  unfold extract_predicate_devices firstSeenExtract
  cases own with
  | none =>
    simp only [ownErase, ownEraseL]
    exact (toFinset_dedupFirst _).symm
  | some c =>
    simp only [ownErase, ownEraseL]
    by_cases hc : c = ""
    · rw [if_pos hc, if_pos hc]
      exact (toFinset_dedupFirst _).symm
    · rw [if_neg hc, if_neg hc]
      cases hn : normalize_knumber (some c) with
      | none => exact (toFinset_dedupFirst _).symm
      | some n =>
        ext x
        simp only [Finset.mem_erase, List.mem_toFinset, List.mem_filter,
          mem_dedupFirst, decide_eq_true_eq]
        tauto

/-- C2: for any text and nonempty own code, the normalized own code is
removed from the result set last, so it is never in the output of
extract_predicate_devices. -/
theorem own_code_excluded (text c : String) (h : c ≠ "") (n : String)
    (hn : normalize_knumber (some c) = some n) :
    n ∉ extract_predicate_devices text (some c) := by
  unfold extract_predicate_devices
  simp only [ownErase]
  rw [if_neg h, hn]
  exact Finset.not_mem_erase _ _

/-- C2 witness at a concrete document citing the own code near a trigger
phrase. -/
theorem own_code_excluded_witness :
    ("K123456" : String) ∉
      extract_predicate_devices ("Predicate device: K123456") (some ("K123456")) :=
  own_code_excluded ("Predicate device: K123456") ("K123456") (by decide)
    ("K123456") (by decide)

/-- C3: every code in the output of extract_k_number_pattern, and hence of
extract_predicate_devices, is the letter K followed by exactly six digits;
raw candidates whose cleaned form fails this validation are discarded. -/
theorem output_codes_canonical :
    (∀ t k, k ∈ extract_k_number_pattern t → isCanonicalK k = true) ∧
      (∀ text own k, k ∈ extract_predicate_devices text own → isCanonicalK k = true) := by
  constructor
  · intro t k h
    exact extract_k_canonical h
  · intro text own k h
    have h2 : k ∈ (gatherAll text).toFinset := ownErase_subset h
    rcases mem_gatherAll (List.mem_toFinset.mp h2) with ⟨t, ht⟩
    exact extract_k_canonical ht

/-- C3 witness at a concrete extraction. -/
theorem output_codes_canonical_witness : isCanonicalK ("K101234") = true :=
  output_codes_canonical.1 ("Predicate device: K1O1234") ("K101234") (by decide)

/-- C4: the orchestrator on empty text and the PDF processing entry on
absent, unparseable or text-free input all return the empty set; the
embedding is a total function, mirroring that the source never raises. -/
theorem empty_input_safety (own : Option String) :
    extract_predicate_devices ("") own = ∅ ∧
      process_pdf_for_predicates none own = ∅ ∧
      (∀ t, process_pdf_for_predicates (some ⟨false, t⟩) own = ∅) ∧
      process_pdf_for_predicates (some ⟨true, ""⟩) own = ∅ := by
  have hg : gatherAll ("") = [] := by decide
  refine ⟨?_, rfl, fun t => rfl, by simp [process_pdf_for_predicates]⟩
  unfold extract_predicate_devices
  rw [hg, List.toFinset_nil]
  exact ownErase_empty own

/-- C5 counterexample: normalization is not idempotent on strings with
newlines, because removing a dot suffix can create a trailing newline and
the end anchor then also matches just before it, enabling a second
removal. -/
theorem normalize_not_idempotent :
    normalize_knumber (normalize_knumber (some ("a.\n."))) ≠
      normalize_knumber (some ("a.\n.")) := by decide

/-- C5 amended: the code normalizer is idempotent on every string that
contains no newline character (in particular on every device-code
string). -/
theorem normalize_idempotent_no_newline (s : String) (h : '\n' ∉ s.data) :
    normalize_knumber (normalize_knumber (some s)) = normalize_knumber (some s) := by
  by_cases hs : s = ""
  · subst hs; rfl
  · have h1 : normalize_knumber (some s) = some (String.mk (normalizeList s.data)) := by
      simp [normalize_knumber, hs]
    rw [h1]
    rcases normalizeList_shape s.data with ⟨v, hv, hvchar⟩
    rw [hv]
    have hT : stripDotList s.data = s.data.takeWhile notDot := stripDotList_no_nl h
    have hmemv : ∀ x ∈ v, x ≠ '.' ∧ x ≠ '\n' := by
      intro x hx
      have hxT : x ∈ stripDotList s.data := by
        rcases hvchar with hc1 | hc2
        · rw [hc1] at hx
          exact List.mem_of_mem_tail hx
        · rw [hc2] at hx
          exact hx
      rw [hT] at hxT
      have hnd : notDot x = true := List.mem_takeWhile_imp hxT
      have hmem : x ∈ s.data := (List.takeWhile_sublist notDot).mem hxT
      constructor
      · intro he
        rw [he] at hnd
        simp [notDot] at hnd
      · intro he
        rw [he] at hmem
        exact h hmem
    have hne : String.mk ('K' :: v) ≠ "" := by
      intro hcon
      have hdata : ('K' :: v) = ([] : List Char) := by
        simpa using congrArg String.data hcon
      cases hdata
    have hnl2 : '\n' ∉ ('K' :: v) := by
      intro hm
      rcases List.mem_cons.mp hm with he | hv2
      · cases he
      · exact (hmemv _ hv2).2 rfl
    have hsd : stripDotList ('K' :: v) = ('K' :: v).takeWhile notDot :=
      stripDotList_no_nl hnl2
    have htw : ('K' :: v).takeWhile notDot = 'K' :: v := by
      apply takeWhile_all
      intro x hx
      rcases List.mem_cons.mp hx with he | hv2
      · subst he; decide
      · simp [notDot, (hmemv _ hv2).1]
    simp only [normalize_knumber]
    rw [if_neg hne]
    have hfix : normalizeList (String.mk ('K' :: v)).data = 'K' :: v := by
      show normalizeList ('K' :: v) = 'K' :: v
      unfold normalizeList
      rw [hsd, htw]
      simp
    rw [hfix]

/-- C5 witness: idempotence at a concrete suffixed code. -/
theorem normalize_idempotent_no_newline_witness :
    '\n' ∉ ("K864052.000" : String).data ∧
      normalize_knumber (normalize_knumber (some ("K864052.000"))) =
        normalize_knumber (some ("K864052.000")) :=
  ⟨by decide, normalize_idempotent_no_newline ("K864052.000") (by decide)⟩

/-- C6 counterexample: the normalizer performs no digit validation: an
input whose remainder is entirely non-digit letters is still returned as
an accepted code. -/
theorem normalize_accepts_nondigit :
    normalize_knumber (some ("KABCDEF")) = some ("KABCDEF") ∧
      ("KABCDEF" : String).data.tail.all Char.isDigit = false := by decide

/-- C6 amended: for every nonempty input the normalizer returns an
accepted code whose first character is forced to uppercase K and whose
remainder is the dot-stripped input (or its tail when the input already
had the K prefix) unchanged in case; no digit validation is performed. -/
theorem normalize_uppercases_prefix_only (s : String) (h : s ≠ "") :
    ∃ v, normalize_knumber (some s) = some (String.mk ('K' :: v)) ∧
      (v = (stripDotList s.data).tail ∨ v = stripDotList s.data) := by
  rcases normalizeList_shape s.data with ⟨v, hv, hvc⟩
  refine ⟨v, ?_, hvc⟩
  simp [normalize_knumber, h, hv]

/-- C6 witness at a concrete prefix-free input. -/
theorem normalize_uppercases_prefix_only_witness :
    ∃ v, normalize_knumber (some ("864052.000")) = some (String.mk ('K' :: v)) ∧
      (v = (stripDotList ("864052.000" : String).data).tail ∨
        v = stripDotList ("864052.000" : String).data) :=
  normalize_uppercases_prefix_only ("864052.000") (by decide)

/-- C7: every line matching a table/column-header indicator contributes
the half-open region from two lines before it through twenty lines after
it, clipped to the document bounds. -/
theorem table_region_bounds (lines : List String) (i : Nat) (h : i < lines.length)
    (ht : tableTrigger (lines.get ⟨i, h⟩) = true) :
    (i - 2, min lines.length (i + 20)) ∈ tableSections lines := by
  have hm : (i, lines.get ⟨i, h⟩) ∈ enumFrom 0 lines := by
    simpa using enumFrom_get lines 0 i h
  unfold tableSections
  refine listFlat_mem_intro hm ?_
  simp
  exact ht

/-- C7 witness: a header on the third line of a three-line document yields
the clipped region from line zero to line three. -/
theorem table_region_bounds_witness :
    (0, 3) ∈ tableSections [("alpha"), ("beta"), ("510(k) number list")] :=
  table_region_bounds [("alpha"), ("beta"), ("510(k) number list")] 2
    (by decide) (by decide)

/-- C8: the OCR-substituted line yields the corrected code, the corrected
code is in the candidate set before self-exclusion, and the letter-O
replacement applies only to matches whose cleaned form has the
OCR-tolerant code shape. -/
theorem ocr_example_and_gate :
    extract_k_number_pattern ("Predicate device: K1O1234") = [("K101234")] ∧
      ("K101234" : String) ∈ extract_predicate_devices ("Predicate device: K1O1234") none ∧
      ∀ m : List Char, ocrShape (cleanRaw m) = false → cleanMatch m = cleanRaw m := by
  refine ⟨by decide, by decide, ?_⟩
  intro m hm
  simp [cleanMatch, hm]

/-- C8 witness: a seven-digit cleaned match is outside the OCR-tolerant
shape and is left unreplaced. -/
theorem ocr_example_and_gate_witness :
    cleanMatch ("K1234567" : String).data = cleanRaw ("K1234567" : String).data :=
  ocr_example_and_gate.2.2 ("K1234567" : String).data (by decide)

/-- C9: when no line matches any direct trigger, table indicator or
secondary section phrase, all three passes select nothing and the
orchestrator returns the empty set even if code-shaped tokens occur in
the text. -/
theorem no_trigger_no_codes (text : String) (own : Option String)
    (h : ∀ line ∈ splitLines text,
      predTrigger line = false ∧ tableTrigger line = false ∧
        sectionTrigger line = false) :
    extract_predicate_devices text own = ∅ := by
  have hp : potentialLines (splitLines text) = [] := by
    apply listFlat_eq_nil
    rintro ⟨i, line⟩ hmem
    have hl : line ∈ splitLines text := mem_enumFrom hmem
    simp [(h line hl).1]
  have htb : tableSections (splitLines text) = [] := by
    apply listFlat_eq_nil
    rintro ⟨i, line⟩ hmem
    have hl : line ∈ splitLines text := mem_enumFrom hmem
    simp [(h line hl).2.1]
  have hss : sectionStarts (splitLines text) = [] := by
    apply listFlat_eq_nil
    rintro ⟨i, line⟩ hmem
    have hl : line ∈ splitLines text := mem_enumFrom hmem
    have hst := (h line hl).2.2
    have hhits : sectionHits line = [] := by
      apply List.filter_eq_nil_iff.mpr
      intro p hp2 hsp
      have hany : section_patterns.any (fun q => searchPat q line.data) = true :=
        List.any_eq_true.mpr ⟨p, hp2, hsp⟩
      rw [sectionTrigger] at hst
      rw [hst] at hany
      cases hany
    simp [hhits]
  have hg : gatherAll text = [] := by
    unfold gatherAll
    rw [hp, htb, hss]
    rfl
  unfold extract_predicate_devices
  rw [hg, List.toFinset_nil]
  exact ownErase_empty own

/-- C9 witness: a document with a code-shaped token but no trigger line
yields the empty result. -/
theorem no_trigger_no_codes_witness :
    containsK6 ("Device K123456 was cleared today" : String).data = true ∧
      extract_predicate_devices ("Device K123456 was cleared today") none = ∅ :=
  ⟨by decide, no_trigger_no_codes ("Device K123456 was cleared today") none (by decide)⟩

/-- C10: the self-exclusion step removes only the exact normalized own
code, which is never OCR-corrected: with an own code spelled with the
letter O, the OCR-corrected form of the same spelling survives in the
output. -/
theorem own_code_ocr_not_excluded :
    ("K101234" : String) ∈
      extract_predicate_devices ("Predicate device: K1O1234") (some ("K1O1234")) := by
  decide

end PredicateGraph
